import Mathlib

/-!
Shallow embedding of the atomic_ops library: the memory-model to
hardware-ordering mapping of `atomic_ops.hpp`, the generic atomic
primitives (`load`, `store`, `fetch_add`, `fetch_and`, `fetch_or`), and
the atomic bitmap built on them (`bitmap_get`, `bitmap_set`,
`bitmap_clear`, `bitmap_next`, `bitmap_first`).

Bitmap memory is modelled as a total map from word index to word
contents; machine words (`unsigned long`, 64 bits) are natural numbers,
kept below `2 ^ 64` where a proof needs the width.  Operations that
mutate memory return the new memory together with the C++ return value.
The memory-model tag is threaded exactly as in the source; in this
sequential embedding the ordering it selects does not change the value
an operation computes, only which branch of the source it mirrors.
-/

namespace atomic_ops

/-- The five hardware orderings of `enum memory_order` in atomic_ops.hpp. -/
inductive memory_order where
  | acquire
  | relaxed
  | release
  | acq_rel
  | seq_cst
deriving DecidableEq

/-- The four consistency models of `enum MemoryModel` in atomic_ops.hpp. -/
inductive MemoryModel where
  | SequentialConsistency
  | ReleaseConsistency
  | RelaxedConsistency
  | Unsynchronized
deriving DecidableEq

/-- `load_order` from atomic_ops.hpp. -/
def load_order : MemoryModel → memory_order
  | .SequentialConsistency => .seq_cst
  | .ReleaseConsistency => .acquire
  | .RelaxedConsistency => .relaxed
  | .Unsynchronized => .relaxed

/-- `store_order` from atomic_ops.hpp. -/
def store_order : MemoryModel → memory_order
  | .SequentialConsistency => .seq_cst
  | .ReleaseConsistency => .release
  | .RelaxedConsistency => .relaxed
  | .Unsynchronized => .relaxed

/-- `rmw_order` from atomic_ops.hpp. -/
def rmw_order : MemoryModel → memory_order
  | .SequentialConsistency => .seq_cst
  | .ReleaseConsistency => .acq_rel
  | .RelaxedConsistency => .relaxed
  | .Unsynchronized => .relaxed

/-- `load(T&, mm_tag)` from atomic_ops.hpp: the `Unsynchronized` branch is
the plain read, every other model reads with `load_order mm`; both read the
current contents. -/
def load (t : Nat) (mm : MemoryModel) : Nat :=
  match mm with
  | .Unsynchronized => t
  | _ => t

/-- `store(T&, U, mm_tag)` from atomic_ops.hpp: returns the new contents of
the location. -/
def store (_t u : Nat) (mm : MemoryModel) : Nat :=
  match mm with
  | .Unsynchronized => u
  | _ => u

/-- `fetch_add(T&, U, mm_tag)` from atomic_ops.hpp on a 64-bit word:
returns (new contents, previous contents). -/
def fetch_add (t u : Nat) (mm : MemoryModel) : Nat × Nat :=
  match mm with
  | .Unsynchronized => ((t + u) % 2 ^ 64, t)
  | _ => ((t + u) % 2 ^ 64, t)

/-- `fetch_and(T&, U, mm_tag)` from atomic_ops.hpp:
returns (new contents, previous contents). -/
def fetch_and (t u : Nat) (mm : MemoryModel) : Nat × Nat :=
  match mm with
  | .Unsynchronized => (t &&& u, t)
  | _ => (t &&& u, t)

/-- `fetch_or(T&, U, mm_tag)` from atomic_ops.hpp:
returns (new contents, previous contents). -/
def fetch_or (t u : Nat) (mm : MemoryModel) : Nat × Nat :=
  match mm with
  | .Unsynchronized => (t ||| u, t)
  | _ => (t ||| u, t)

/-- `BITMAP_WORD_BITS = 8 * sizeof(unsigned long)` for the 64-bit
`unsigned long` of the source. -/
def BITMAP_WORD_BITS : Nat := 64

/-- `bitmap_mask(t) = 1ul << t`. -/
def bitmap_mask (t : Nat) : Nat := 1 <<< t

/-- `bitmap_words(n)`: number of words backing an n-bit bitmap. -/
def bitmap_words (n : Nat) : Nat :=
  n / BITMAP_WORD_BITS + (if n % BITMAP_WORD_BITS ≠ 0 then 1 else 0)

/-- Bitwise NOT (`operator~`) on a 64-bit `unsigned long` value. -/
def word_not (m : Nat) : Nat := (2 ^ 64 - 1) ^^^ m

/-- Writing value `v` into word `w` of the bitmap memory (the store half of
a fetch-and-combine on `bits[w]`). -/
def store_word (bits : Nat → Nat) (w v : Nat) : Nat → Nat :=
  fun w2 => if w2 = w then v else bits w2

/-- `bitmap_get(bits, i, mm)`. -/
def bitmap_get (bits : Nat → Nat) (i : Nat) (mm : MemoryModel) : Nat :=
  let w := i / BITMAP_WORD_BITS
  let b := i % BITMAP_WORD_BITS
  let m := bitmap_mask b
  load (bits w) mm &&& m

/-- `bitmap_set(bits, i, mm)`: returns (new memory, returned value). -/
def bitmap_set (bits : Nat → Nat) (i : Nat) (mm : MemoryModel) :
    (Nat → Nat) × Nat :=
  let w := i / BITMAP_WORD_BITS
  let b := i % BITMAP_WORD_BITS
  let m := bitmap_mask b
  let r := fetch_or (bits w) m mm
  (store_word bits w r.1, r.2 &&& m)

/-- `bitmap_clear(bits, i, mm)`: returns (new memory, returned value).
Note the source masks the fetched word with the complement mask `m`
both in the `fetch_and` and in the returned expression. -/
def bitmap_clear (bits : Nat → Nat) (i : Nat) (mm : MemoryModel) :
    (Nat → Nat) × Nat :=
  let w := i / BITMAP_WORD_BITS
  let b := i % BITMAP_WORD_BITS
  let m := word_not (bitmap_mask b)
  let r := fetch_and (bits w) m mm
  (store_word bits w r.1, r.2 &&& m)

/-- `std::countr_zero` on a 64-bit `unsigned long`: number of trailing zero
bits, 64 on input 0. -/
def countr_zero (d : Nat) : Nat :=
  if h : d = 0 then 64
  else if d % 2 = 1 then 0
  else countr_zero (d / 2) + 1
termination_by d
decreasing_by exact Nat.div_lt_self (Nat.pos_of_ne_zero h) (by omega)

/-- `bitmap_next(bits, i, e, mm)`: index of the next set bit strictly after
`i`, saturating at the exclusive bound `e`.  The source pre-increments `i`,
returns `e` when the incremented index reaches the bound, and otherwise
loads the containing word, shifts out the low `b` bits and either locates
the next set bit with `countr_zero` or skips to the next word. -/
def bitmap_next (bits : Nat → Nat) (i e : Nat) (mm : MemoryModel) : Nat :=
  if _h : i + 1 ≥ e then e
  else
    let w := (i + 1) / BITMAP_WORD_BITS
    let b := (i + 1) % BITMAP_WORD_BITS
    let d := load (bits w) mm >>> b
    if d ≠ 0 then
      let n := (i + 1) + countr_zero d
      if n < e then n else e
    else
      bitmap_next bits ((i + 1) + (BITMAP_WORD_BITS - b) - 1) e mm
termination_by e - i
decreasing_by simp only [BITMAP_WORD_BITS] at *; omega

/-- The word indices `bitmap_next(bits, i, e, mm)` loads from memory, in
order: one load per invocation, none when the incremented index has already
reached the bound. -/
def bitmap_next_reads (bits : Nat → Nat) (i e : Nat) (mm : MemoryModel) :
    List Nat :=
  if _h : i + 1 ≥ e then []
  else
    let w := (i + 1) / BITMAP_WORD_BITS
    let b := (i + 1) % BITMAP_WORD_BITS
    let d := load (bits w) mm >>> b
    if d ≠ 0 then [w]
    else w :: bitmap_next_reads bits ((i + 1) + (BITMAP_WORD_BITS - b) - 1) e mm
termination_by e - i
decreasing_by simp only [BITMAP_WORD_BITS] at *; omega

/-- The number of invocations `bitmap_next(bits, i, e, mm)` makes (the
initial call plus one per recursive step). -/
def bitmap_next_steps (bits : Nat → Nat) (i e : Nat) (mm : MemoryModel) :
    Nat :=
  if _h : i + 1 ≥ e then 1
  else
    let w := (i + 1) / BITMAP_WORD_BITS
    let b := (i + 1) % BITMAP_WORD_BITS
    let d := load (bits w) mm >>> b
    if d ≠ 0 then 1
    else
      bitmap_next_steps bits ((i + 1) + (BITMAP_WORD_BITS - b) - 1) e mm + 1
termination_by e - i
decreasing_by simp only [BITMAP_WORD_BITS] at *; omega

/-- `bitmap_first(bits, i, e, mm)`. -/
def bitmap_first (bits : Nat → Nat) (i e : Nat) (mm : MemoryModel) : Nat :=
  if bitmap_get bits i mm ≠ 0 then i else bitmap_next bits i e mm

/-- Bit `j` of the bitmap is set. -/
def bitSet (bits : Nat → Nat) (j : Nat) : Prop :=
  Nat.testBit (bits (j / BITMAP_WORD_BITS)) (j % BITMAP_WORD_BITS) = true

instance (bits : Nat → Nat) (j : Nat) : Decidable (bitSet bits j) :=
  inferInstanceAs (Decidable (_ = true))

/-- Every word of the bitmap memory fits in an `unsigned long`. -/
def Words64 (bits : Nat → Nat) : Prop := ∀ w, bits w < 2 ^ 64

lemma load_eq (t : Nat) (mm : MemoryModel) : load t mm = t := by
  cases mm <;> rfl

lemma fetch_or_eq (t u : Nat) (mm : MemoryModel) :
    fetch_or t u mm = (t ||| u, t) := by
  cases mm <;> rfl

lemma fetch_and_eq (t u : Nat) (mm : MemoryModel) :
    fetch_and t u mm = (t &&& u, t) := by
  cases mm <;> rfl

lemma and_mask_eq (x b : Nat) :
    x &&& bitmap_mask b = if Nat.testBit x b then bitmap_mask b else 0 := by
  rw [bitmap_mask, Nat.one_shiftLeft, Nat.and_two_pow]
  cases h : Nat.testBit x b <;> simp [h]

lemma bitmap_mask_ne_zero (b : Nat) : bitmap_mask b ≠ 0 := by
  rw [bitmap_mask, Nat.one_shiftLeft]
  exact Nat.pos_iff_ne_zero.mp (Nat.pos_pow_of_pos b (by omega))

lemma bitmap_get_eq (bits : Nat → Nat) (i : Nat) (mm : MemoryModel) :
    bitmap_get bits i mm =
      if Nat.testBit (bits (i / BITMAP_WORD_BITS)) (i % BITMAP_WORD_BITS)
      then bitmap_mask (i % BITMAP_WORD_BITS) else 0 := by
  rw [bitmap_get, load_eq, and_mask_eq]

lemma testBit_word_not (x b k : Nat) (hk : k < 64) :
    Nat.testBit (x &&& word_not (bitmap_mask b)) k =
      (Nat.testBit x k && !Nat.testBit (bitmap_mask b) k) := by
  rw [word_not, Nat.testBit_and, Nat.testBit_xor, Nat.testBit_two_pow_sub_one]
  simp [hk, Bool.xor_comm]

lemma bitmap_set_fst (bits : Nat → Nat) (i : Nat) (mm : MemoryModel) :
    (bitmap_set bits i mm).1 =
      store_word bits (i / BITMAP_WORD_BITS)
        (bits (i / BITMAP_WORD_BITS) ||| bitmap_mask (i % BITMAP_WORD_BITS)) := by
  rw [bitmap_set, fetch_or_eq]

lemma bitmap_set_snd (bits : Nat → Nat) (i : Nat) (mm : MemoryModel) :
    (bitmap_set bits i mm).2 =
      bits (i / BITMAP_WORD_BITS) &&& bitmap_mask (i % BITMAP_WORD_BITS) := by
  rw [bitmap_set, fetch_or_eq]

lemma bitmap_clear_fst (bits : Nat → Nat) (i : Nat) (mm : MemoryModel) :
    (bitmap_clear bits i mm).1 =
      store_word bits (i / BITMAP_WORD_BITS)
        (bits (i / BITMAP_WORD_BITS) &&&
          word_not (bitmap_mask (i % BITMAP_WORD_BITS))) := by
  rw [bitmap_clear, fetch_and_eq]

lemma store_word_same (bits : Nat → Nat) (w v : Nat) :
    store_word bits w v w = v := by
  simp [store_word]

lemma store_word_other (bits : Nat → Nat) (w v w2 : Nat) (h : w2 ≠ w) :
    store_word bits w v w2 = bits w2 := by
  simp [store_word, h]

lemma mod_word_lt (i : Nat) : i % BITMAP_WORD_BITS < 64 := by
  simp only [BITMAP_WORD_BITS]
  omega

lemma bitmap_next_of_ge (bits : Nat → Nat) (i e : Nat) (mm : MemoryModel)
    (h : i + 1 ≥ e) : bitmap_next bits i e mm = e := by
  rw [bitmap_next, dif_pos h]

lemma bitmap_next_of_found (bits : Nat → Nat) (i e : Nat) (mm : MemoryModel)
    (h1 : ¬ i + 1 ≥ e)
    (h2 : bits ((i + 1) / BITMAP_WORD_BITS) >>> ((i + 1) % BITMAP_WORD_BITS)
      ≠ 0) :
    bitmap_next bits i e mm =
      if (i + 1) + countr_zero
          (bits ((i + 1) / BITMAP_WORD_BITS) >>>
            ((i + 1) % BITMAP_WORD_BITS)) < e
      then (i + 1) + countr_zero
        (bits ((i + 1) / BITMAP_WORD_BITS) >>> ((i + 1) % BITMAP_WORD_BITS))
      else e := by
  rw [bitmap_next, dif_neg h1]
  simp only [load_eq]
  rw [if_pos h2]

lemma bitmap_next_of_zero (bits : Nat → Nat) (i e : Nat) (mm : MemoryModel)
    (h1 : ¬ i + 1 ≥ e)
    (h2 : bits ((i + 1) / BITMAP_WORD_BITS) >>> ((i + 1) % BITMAP_WORD_BITS)
      = 0) :
    bitmap_next bits i e mm =
      bitmap_next bits
        ((i + 1) + (BITMAP_WORD_BITS - (i + 1) % BITMAP_WORD_BITS) - 1) e
        mm := by
  rw [bitmap_next, dif_neg h1]
  simp only [load_eq]
  rw [if_neg (by simp [h2])]

lemma bitmap_next_reads_of_ge (bits : Nat → Nat) (i e : Nat)
    (mm : MemoryModel) (h : i + 1 ≥ e) : bitmap_next_reads bits i e mm = [] := by
  rw [bitmap_next_reads, dif_pos h]

lemma bitmap_next_reads_of_found (bits : Nat → Nat) (i e : Nat)
    (mm : MemoryModel) (h1 : ¬ i + 1 ≥ e)
    (h2 : bits ((i + 1) / BITMAP_WORD_BITS) >>> ((i + 1) % BITMAP_WORD_BITS)
      ≠ 0) :
    bitmap_next_reads bits i e mm = [(i + 1) / BITMAP_WORD_BITS] := by
  rw [bitmap_next_reads, dif_neg h1]
  simp only [load_eq]
  rw [if_pos h2]

lemma bitmap_next_reads_of_zero (bits : Nat → Nat) (i e : Nat)
    (mm : MemoryModel) (h1 : ¬ i + 1 ≥ e)
    (h2 : bits ((i + 1) / BITMAP_WORD_BITS) >>> ((i + 1) % BITMAP_WORD_BITS)
      = 0) :
    bitmap_next_reads bits i e mm =
      (i + 1) / BITMAP_WORD_BITS ::
        bitmap_next_reads bits
          ((i + 1) + (BITMAP_WORD_BITS - (i + 1) % BITMAP_WORD_BITS) - 1) e
          mm := by
  rw [bitmap_next_reads, dif_neg h1]
  simp only [load_eq]
  rw [if_neg (by simp [h2])]

lemma bitmap_next_steps_of_ge (bits : Nat → Nat) (i e : Nat)
    (mm : MemoryModel) (h : i + 1 ≥ e) : bitmap_next_steps bits i e mm = 1 := by
  rw [bitmap_next_steps, dif_pos h]

lemma bitmap_next_steps_of_found (bits : Nat → Nat) (i e : Nat)
    (mm : MemoryModel) (h1 : ¬ i + 1 ≥ e)
    (h2 : bits ((i + 1) / BITMAP_WORD_BITS) >>> ((i + 1) % BITMAP_WORD_BITS)
      ≠ 0) :
    bitmap_next_steps bits i e mm = 1 := by
  rw [bitmap_next_steps, dif_neg h1]
  simp only [load_eq]
  rw [if_pos h2]

lemma bitmap_next_steps_of_zero (bits : Nat → Nat) (i e : Nat)
    (mm : MemoryModel) (h1 : ¬ i + 1 ≥ e)
    (h2 : bits ((i + 1) / BITMAP_WORD_BITS) >>> ((i + 1) % BITMAP_WORD_BITS)
      = 0) :
    bitmap_next_steps bits i e mm =
      bitmap_next_steps bits
        ((i + 1) + (BITMAP_WORD_BITS - (i + 1) % BITMAP_WORD_BITS) - 1) e
        mm + 1 := by
  rw [bitmap_next_steps, dif_neg h1]
  simp only [load_eq]
  rw [if_neg (by simp [h2])]

lemma countr_zero_testBit : ∀ d : Nat, d ≠ 0 →
    Nat.testBit d (countr_zero d) = true := by
  intro d
  induction d using Nat.strong_induction_on with
  | _ d ih =>
    intro hd
    rw [countr_zero, dif_neg hd]
    by_cases h2 : d % 2 = 1
    · rw [if_pos h2]
      simp [Nat.testBit_zero, h2]
    · rw [if_neg h2, Nat.testBit_add_one]
      exact ih (d / 2) (Nat.div_lt_self (Nat.pos_of_ne_zero hd) (by omega))
        (by omega)

lemma countr_zero_min : ∀ d j : Nat, j < countr_zero d →
    Nat.testBit d j = false := by
  intro d
  induction d using Nat.strong_induction_on with
  | _ d ih =>
    intro j hj
    by_cases hd : d = 0
    · subst hd; simp
    · rw [countr_zero, dif_neg hd] at hj
      by_cases h2 : d % 2 = 1
      · rw [if_pos h2] at hj
        omega
      · rw [if_neg h2] at hj
        cases j with
        | zero =>
          simp only [Nat.testBit_zero, decide_eq_false_iff_not]
          exact h2
        | succ k =>
          rw [Nat.testBit_add_one]
          exact ih (d / 2)
            (Nat.div_lt_self (Nat.pos_of_ne_zero hd) (by omega)) k (by omega)

lemma countr_zero_lt (n d : Nat) (hd : d ≠ 0) (hlt : d < 2 ^ n) :
    countr_zero d < n := by
  by_contra h
  push_neg at h
  have h1 := countr_zero_testBit d hd
  have h2 : Nat.testBit d (countr_zero d) = false :=
    Nat.testBit_lt_two_pow
      (lt_of_lt_of_le hlt (Nat.pow_le_pow_right (by omega) h))
  rw [h1] at h2
  exact absurd h2 (by simp)

lemma shiftRight_lt_pow (x b : Nat) (hb : b ≤ 64) (hx : x < 2 ^ 64) :
    x >>> b < 2 ^ (64 - b) := by
  rw [Nat.shiftRight_eq_div_pow]
  apply (Nat.div_lt_iff_lt_mul (Nat.pos_pow_of_pos b (by omega))).mpr
  calc x < 2 ^ 64 := hx
    _ = 2 ^ (64 - b) * 2 ^ b := by rw [← pow_add]; congr 1; omega

lemma div_mod_of_add (i k : Nat) (hk : i % BITMAP_WORD_BITS + k < 64) :
    (i + k) / BITMAP_WORD_BITS = i / BITMAP_WORD_BITS ∧
    (i + k) % BITMAP_WORD_BITS = i % BITMAP_WORD_BITS + k := by
  simp only [BITMAP_WORD_BITS] at *
  omega

lemma found_case (bits : Nat → Nat) (i' : Nat) (hw : Words64 bits)
    (h2 : bits (i' / BITMAP_WORD_BITS) >>> (i' % BITMAP_WORD_BITS) ≠ 0) :
    bitSet bits
      (i' + countr_zero
        (bits (i' / BITMAP_WORD_BITS) >>> (i' % BITMAP_WORD_BITS))) ∧
    ∀ j, i' ≤ j →
      j < i' + countr_zero
        (bits (i' / BITMAP_WORD_BITS) >>> (i' % BITMAP_WORD_BITS)) →
      ¬ bitSet bits j := by
  have hb63 := mod_word_lt i'
  have hctz : countr_zero
      (bits (i' / BITMAP_WORD_BITS) >>> (i' % BITMAP_WORD_BITS)) <
      64 - i' % BITMAP_WORD_BITS :=
    countr_zero_lt _ _ h2 (shiftRight_lt_pow _ _ (by omega) (hw _))
  constructor
  · have hdec := div_mod_of_add i'
      (countr_zero (bits (i' / BITMAP_WORD_BITS) >>> (i' % BITMAP_WORD_BITS)))
      (by omega)
    unfold bitSet
    rw [hdec.1, hdec.2, ← Nat.testBit_shiftRight]
    exact countr_zero_testBit _ h2
  · intro j hj1 hj2 hbj
    obtain ⟨k, rfl⟩ : ∃ k, j = i' + k := ⟨j - i', by omega⟩
    have hk : k < countr_zero
        (bits (i' / BITMAP_WORD_BITS) >>> (i' % BITMAP_WORD_BITS)) := by
      omega
    have hdec := div_mod_of_add i' k (by omega)
    unfold bitSet at hbj
    rw [hdec.1, hdec.2, ← Nat.testBit_shiftRight,
      countr_zero_min _ _ hk] at hbj
    exact absurd hbj (by simp)

lemma zero_case (bits : Nat → Nat) (i' : Nat)
    (h2 : bits (i' / BITMAP_WORD_BITS) >>> (i' % BITMAP_WORD_BITS) = 0) :
    ∀ j, i' ≤ j → j < i' + (BITMAP_WORD_BITS - i' % BITMAP_WORD_BITS) →
      ¬ bitSet bits j := by
  have hb63 := mod_word_lt i'
  intro j hj1 hj2 hbj
  obtain ⟨k, rfl⟩ : ∃ k, j = i' + k := ⟨j - i', by omega⟩
  have hdec := div_mod_of_add i' k (by simp only [BITMAP_WORD_BITS] at *; omega)
  unfold bitSet at hbj
  rw [hdec.1, hdec.2, ← Nat.testBit_shiftRight, h2] at hbj
  exact absurd hbj (by simp)

lemma bitmap_next_main (bits : Nat → Nat) (mm : MemoryModel)
    (hw : Words64 bits) :
    ∀ n i e, e - i ≤ n →
      ((∀ j, i < j → j < e → bitSet bits j →
          i < bitmap_next bits i e mm ∧ bitmap_next bits i e mm < e ∧
          bitSet bits (bitmap_next bits i e mm) ∧
          bitmap_next bits i e mm ≤ j) ∧
        ((∀ j, i < j → j < e → ¬ bitSet bits j) →
          bitmap_next bits i e mm = e)) := by
  intro n
  induction n with
  | zero =>
    intro i e hn
    have he : bitmap_next bits i e mm = e :=
      bitmap_next_of_ge bits i e mm (by omega)
    exact ⟨fun j hj1 hj2 _ => absurd hj2 (by omega), fun _ => he⟩
  | succ n ih =>
    intro i e hn
    by_cases h1 : i + 1 ≥ e
    · have he : bitmap_next bits i e mm = e := bitmap_next_of_ge bits i e mm h1
      exact ⟨fun j hj1 hj2 _ => absurd hj2 (by omega), fun _ => he⟩
    · have hb63 := mod_word_lt (i + 1)
      by_cases h2 : bits ((i + 1) / BITMAP_WORD_BITS) >>>
          ((i + 1) % BITMAP_WORD_BITS) ≠ 0
      · have heq := bitmap_next_of_found bits i e mm h1 h2
        have hf := found_case bits (i + 1) hw h2
        rw [heq]
        by_cases h3 : (i + 1) + countr_zero
            (bits ((i + 1) / BITMAP_WORD_BITS) >>>
              ((i + 1) % BITMAP_WORD_BITS)) < e
        · rw [if_pos h3]
          constructor
          · intro j hj1 hj2 hbj
            refine ⟨by omega, h3, hf.1, ?_⟩
            by_contra hcon
            push_neg at hcon
            exact hf.2 j (by omega) hcon hbj
          · intro hnone
            exact absurd hf.1 (hnone _ (by omega) h3)
        · rw [if_neg h3]
          constructor
          · intro j hj1 hj2 hbj
            exfalso
            have hge : (i + 1) + countr_zero
                (bits ((i + 1) / BITMAP_WORD_BITS) >>>
                  ((i + 1) % BITMAP_WORD_BITS)) ≤ j := by
              by_contra hcon
              push_neg at hcon
              exact hf.2 j (by omega) hcon hbj
            omega
          · intro _
            rfl
      · have h2' : bits ((i + 1) / BITMAP_WORD_BITS) >>>
            ((i + 1) % BITMAP_WORD_BITS) = 0 := not_not.mp h2
        have heq := bitmap_next_of_zero bits i e mm h1 h2'
        have hz := zero_case bits (i + 1) h2'
        have hrec := ih
          ((i + 1) + (BITMAP_WORD_BITS - (i + 1) % BITMAP_WORD_BITS) - 1) e
          (by simp only [BITMAP_WORD_BITS] at *; omega)
        rw [heq]
        constructor
        · intro j hj1 hj2 hbj
          have hj_gt :
              (i + 1) + (BITMAP_WORD_BITS - (i + 1) % BITMAP_WORD_BITS) - 1 <
                j := by
            by_contra hcon
            push_neg at hcon
            exact hz j (by omega)
              (by simp only [BITMAP_WORD_BITS] at *; omega) hbj
          obtain ⟨ha, hlt, hbit, hle⟩ := hrec.1 j hj_gt hj2 hbj
          refine ⟨?_, hlt, hbit, hle⟩
          simp only [BITMAP_WORD_BITS] at *
          omega
        · intro hnone
          apply hrec.2
          intro j hj1 hj2
          apply hnone j ?_ hj2
          simp only [BITMAP_WORD_BITS] at *
          omega

/-- Claim C2: when some index `j` with `i < j < e` has its bit set,
`bitmap_next bits i e mm` is itself a set bit strictly between `i` and `e`
and is a lower bound of every such `j` (so it is the smallest one); when no
bit strictly between `i` and `e` is set, it returns `e`. -/
theorem bitmap_next_spec (bits : Nat → Nat) (i e : Nat) (mm : MemoryModel)
    (hw : Words64 bits) :
    (∀ j, i < j → j < e → bitSet bits j →
      i < bitmap_next bits i e mm ∧ bitmap_next bits i e mm < e ∧
      bitSet bits (bitmap_next bits i e mm) ∧ bitmap_next bits i e mm ≤ j) ∧
    ((∀ j, i < j → j < e → ¬ bitSet bits j) →
      bitmap_next bits i e mm = e) :=
  bitmap_next_main bits mm hw (e - i) i e (le_refl _)

/-- Claim C2 witness: on the all-zero bitmap, scanning from 0 with bound 128
saturates and returns 128. -/
theorem bitmap_next_spec_witness :
    bitmap_next (fun _ => 0) 0 128 MemoryModel.ReleaseConsistency = 128 :=
  (bitmap_next_spec (fun _ => 0) 0 128 MemoryModel.ReleaseConsistency
      (by intro w; norm_num)).2
    (fun j _ _ hb => by simp [bitSet] at hb)

/-- Claim C7: the memory-model-to-ordering mapping is total (the Lean
functions are total by construction) and matches the spec's table:
SequentialConsistency maps to seq_cst for load, store and RMW;
ReleaseConsistency to acquire / release / acq_rel; RelaxedConsistency to
relaxed for all three. -/
theorem order_table_spec :
    load_order MemoryModel.SequentialConsistency = memory_order.seq_cst ∧
    store_order MemoryModel.SequentialConsistency = memory_order.seq_cst ∧
    rmw_order MemoryModel.SequentialConsistency = memory_order.seq_cst ∧
    load_order MemoryModel.ReleaseConsistency = memory_order.acquire ∧
    store_order MemoryModel.ReleaseConsistency = memory_order.release ∧
    rmw_order MemoryModel.ReleaseConsistency = memory_order.acq_rel ∧
    load_order MemoryModel.RelaxedConsistency = memory_order.relaxed ∧
    store_order MemoryModel.RelaxedConsistency = memory_order.relaxed ∧
    rmw_order MemoryModel.RelaxedConsistency = memory_order.relaxed := by
  decide

lemma testBit_mask_self (b : Nat) : Nat.testBit (bitmap_mask b) b = true := by
  rw [bitmap_mask, Nat.one_shiftLeft]
  exact Nat.testBit_two_pow_self

lemma testBit_mask_of_ne (b k : Nat) (h : b ≠ k) :
    Nat.testBit (bitmap_mask b) k = false := by
  rw [bitmap_mask, Nat.one_shiftLeft]
  exact Nat.testBit_two_pow_of_ne h

/-- Claim C8: `bitmap_get` returns the nonzero single-bit mask of bit `i`
when the bit is set and zero when it is clear; it is nonzero immediately
after `bitmap_set` on that bit and zero after a subsequent `bitmap_clear`. -/
theorem bitmap_get_spec (bits : Nat → Nat) (i : Nat) (mm : MemoryModel) :
    bitmap_get bits i mm =
      (if Nat.testBit (bits (i / BITMAP_WORD_BITS)) (i % BITMAP_WORD_BITS)
       then bitmap_mask (i % BITMAP_WORD_BITS) else 0) ∧
    bitmap_mask (i % BITMAP_WORD_BITS) ≠ 0 ∧
    bitmap_get (bitmap_set bits i mm).1 i mm ≠ 0 ∧
    bitmap_get (bitmap_clear (bitmap_set bits i mm).1 i mm).1 i mm = 0 := by
  refine ⟨bitmap_get_eq bits i mm, bitmap_mask_ne_zero _, ?_, ?_⟩
  · rw [bitmap_get_eq, bitmap_set_fst, store_word_same]
    have hb :
        Nat.testBit
          (bits (i / BITMAP_WORD_BITS) ||| bitmap_mask (i % BITMAP_WORD_BITS))
          (i % BITMAP_WORD_BITS) = true := by
      rw [Nat.testBit_or, testBit_mask_self, Bool.or_true]
    rw [hb, if_pos rfl]
    exact bitmap_mask_ne_zero _
  · rw [bitmap_get_eq, bitmap_clear_fst, store_word_same]
    have hb :
        Nat.testBit
          ((bitmap_set bits i mm).1 (i / BITMAP_WORD_BITS) &&&
            word_not (bitmap_mask (i % BITMAP_WORD_BITS)))
          (i % BITMAP_WORD_BITS) = false := by
      rw [testBit_word_not _ _ _ (mod_word_lt i), testBit_mask_self]
      simp
    simp [hb]

/-- Claim C3: `bitmap_set` sets bit `i` and returns the value of bit `i`
before the call, masked to that bit; on a clear bit two consecutive calls
return 0 then a nonzero value. -/
theorem bitmap_set_spec (bits : Nat → Nat) (i : Nat) (mm : MemoryModel) :
    (bitmap_set bits i mm).2 =
      (if Nat.testBit (bits (i / BITMAP_WORD_BITS)) (i % BITMAP_WORD_BITS)
       then bitmap_mask (i % BITMAP_WORD_BITS) else 0) ∧
    Nat.testBit ((bitmap_set bits i mm).1 (i / BITMAP_WORD_BITS))
      (i % BITMAP_WORD_BITS) = true ∧
    (Nat.testBit (bits (i / BITMAP_WORD_BITS)) (i % BITMAP_WORD_BITS) = false →
      (bitmap_set bits i mm).2 = 0 ∧
      (bitmap_set (bitmap_set bits i mm).1 i mm).2 ≠ 0) := by
  refine ⟨?_, ?_, ?_⟩
  · rw [bitmap_set_snd, and_mask_eq]
  · rw [bitmap_set_fst, store_word_same, Nat.testBit_or, testBit_mask_self,
      Bool.or_true]
  · intro h
    constructor
    · rw [bitmap_set_snd, and_mask_eq, h]
      simp
    · rw [bitmap_set_snd, bitmap_set_fst, store_word_same, and_mask_eq,
        Nat.testBit_or, testBit_mask_self, Bool.or_true, if_pos rfl]
      exact bitmap_mask_ne_zero _

/-- Claim C3 witness: on the all-zero bitmap, setting bit 0 twice returns 0
the first time and a nonzero value the second time. -/
theorem bitmap_set_spec_witness :
    (bitmap_set (fun _ => 0) 0 MemoryModel.ReleaseConsistency).2 = 0 ∧
    (bitmap_set (bitmap_set (fun _ => 0) 0 MemoryModel.ReleaseConsistency).1
      0 MemoryModel.ReleaseConsistency).2 ≠ 0 :=
  (bitmap_set_spec (fun _ => 0) 0 MemoryModel.ReleaseConsistency).2.2
    (by decide)

/-- Claim C1: the claim says `bitmap_clear(bits, i, mm)` returns the
previous value of bit `i` (so clearing an already-clear bit returns 0
regardless of the other bits of the word).  The code instead returns the
previous word value masked with the complement mask, i.e. all the OTHER
bits of the containing word: on the word with contents 2 (only bit 1 set),
clearing the already-clear bit 0 returns 2, not 0, although the bit was
clear (`bitmap_get` = 0) and the word is left unchanged. -/
theorem bitmap_clear_return_eval :
    bitmap_get (fun _ => 2) 0 MemoryModel.ReleaseConsistency = 0 ∧
    (bitmap_clear (fun _ => 2) 0 MemoryModel.ReleaseConsistency).2 = 2 ∧
    (bitmap_clear (fun _ => 2) 0 MemoryModel.ReleaseConsistency).1 0 = 2 := by
  refine ⟨by decide, ?_, ?_⟩
  · rw [bitmap_clear, fetch_and_eq]
    decide
  · rw [bitmap_clear, fetch_and_eq]
    decide

/-- Claim C9: `bitmap_set` and `bitmap_clear` modify only bit `i`: every
other bit of the containing word keeps its value, and every other word of
the memory is untouched. -/
theorem bitmap_frame_spec (bits : Nat → Nat) (i j : Nat) (mm : MemoryModel)
    (hij : j ≠ i) :
    Nat.testBit ((bitmap_set bits i mm).1 (j / BITMAP_WORD_BITS))
        (j % BITMAP_WORD_BITS) =
      Nat.testBit (bits (j / BITMAP_WORD_BITS)) (j % BITMAP_WORD_BITS) ∧
    Nat.testBit ((bitmap_clear bits i mm).1 (j / BITMAP_WORD_BITS))
        (j % BITMAP_WORD_BITS) =
      Nat.testBit (bits (j / BITMAP_WORD_BITS)) (j % BITMAP_WORD_BITS) ∧
    (∀ w2, w2 ≠ i / BITMAP_WORD_BITS →
      (bitmap_set bits i mm).1 w2 = bits w2 ∧
      (bitmap_clear bits i mm).1 w2 = bits w2) := by
  rw [bitmap_set_fst, bitmap_clear_fst]
  by_cases hw : j / BITMAP_WORD_BITS = i / BITMAP_WORD_BITS
  · have hb : i % BITMAP_WORD_BITS ≠ j % BITMAP_WORD_BITS := by
      simp only [BITMAP_WORD_BITS] at hw ⊢
      omega
    refine ⟨?_, ?_, ?_⟩
    · rw [hw, store_word_same, Nat.testBit_or, testBit_mask_of_ne _ _ hb,
        Bool.or_false]
    · rw [hw, store_word_same, testBit_word_not _ _ _ (mod_word_lt j),
        testBit_mask_of_ne _ _ hb]
      simp
    · intro w2 h2
      exact ⟨store_word_other _ _ _ _ h2, store_word_other _ _ _ _ h2⟩
  · refine ⟨?_, ?_, ?_⟩
    · rw [store_word_other _ _ _ _ hw]
    · rw [store_word_other _ _ _ _ hw]
    · intro w2 h2
      exact ⟨store_word_other _ _ _ _ h2, store_word_other _ _ _ _ h2⟩

/-- Claim C9 witness: clearing bit 0 of the word with contents 3 leaves
bit 1 of that word set, and setting bit 0 leaves word 1 untouched. -/
theorem bitmap_frame_spec_witness :
    Nat.testBit ((bitmap_clear (fun _ => 3) 0 MemoryModel.ReleaseConsistency).1
        (1 / BITMAP_WORD_BITS)) (1 % BITMAP_WORD_BITS) =
      Nat.testBit ((fun _ : Nat => (3 : Nat)) (1 / BITMAP_WORD_BITS))
        (1 % BITMAP_WORD_BITS) :=
  (bitmap_frame_spec (fun _ => 3) 0 1 MemoryModel.ReleaseConsistency
    (by decide)).2.1

lemma bitmap_next_le_aux (bits : Nat → Nat) (mm : MemoryModel) :
    ∀ n i e, e - i ≤ n → bitmap_next bits i e mm ≤ e := by
  intro n
  induction n with
  | zero =>
    intro i e hn
    exact le_of_eq (bitmap_next_of_ge bits i e mm (by omega))
  | succ n ih =>
    intro i e hn
    by_cases h1 : i + 1 ≥ e
    · exact le_of_eq (bitmap_next_of_ge bits i e mm h1)
    · by_cases h2 : bits ((i + 1) / BITMAP_WORD_BITS) >>>
          ((i + 1) % BITMAP_WORD_BITS) ≠ 0
      · rw [bitmap_next_of_found bits i e mm h1 h2]
        split <;> omega
      · rw [bitmap_next_of_zero bits i e mm h1 (not_not.mp h2)]
        apply ih
        have := mod_word_lt (i + 1)
        simp only [BITMAP_WORD_BITS] at *
        omega

lemma bitmap_next_reads_aux (bits : Nat → Nat) (mm : MemoryModel) :
    ∀ n i e, e - i ≤ n →
      ∀ w ∈ bitmap_next_reads bits i e mm, BITMAP_WORD_BITS * w < e := by
  intro n
  induction n with
  | zero =>
    intro i e hn w hmem
    rw [bitmap_next_reads_of_ge bits i e mm (by omega)] at hmem
    exact absurd hmem (List.not_mem_nil w)
  | succ n ih =>
    intro i e hn w hmem
    by_cases h1 : i + 1 ≥ e
    · rw [bitmap_next_reads_of_ge bits i e mm h1] at hmem
      exact absurd hmem (List.not_mem_nil w)
    · by_cases h2 : bits ((i + 1) / BITMAP_WORD_BITS) >>>
          ((i + 1) % BITMAP_WORD_BITS) ≠ 0
      · rw [bitmap_next_reads_of_found bits i e mm h1 h2] at hmem
        have hw : w = (i + 1) / BITMAP_WORD_BITS := List.mem_singleton.mp hmem
        subst hw
        simp only [BITMAP_WORD_BITS] at *
        omega
      · rw [bitmap_next_reads_of_zero bits i e mm h1 (not_not.mp h2)] at hmem
        rcases List.mem_cons.mp hmem with hh | ht
        · subst hh
          simp only [BITMAP_WORD_BITS] at *
          omega
        · apply ih ((i + 1) + (BITMAP_WORD_BITS - (i + 1) % BITMAP_WORD_BITS)
            - 1) e ?_ w ht
          have := mod_word_lt (i + 1)
          simp only [BITMAP_WORD_BITS] at *
          omega

/-- Claim C4: `bitmap_next` never reads at or past the exclusive bound `e`:
every word index it loads covers a bit index strictly below `e` (its first
bit `BITMAP_WORD_BITS * w` is below `e`), it performs no load at all when
the pre-incremented index already reaches `e`, and the returned index never
exceeds `e`. -/
theorem bitmap_next_safety_spec (bits : Nat → Nat) (i e : Nat)
    (mm : MemoryModel) :
    (∀ w ∈ bitmap_next_reads bits i e mm, BITMAP_WORD_BITS * w < e) ∧
    (i + 1 ≥ e → bitmap_next_reads bits i e mm = []) ∧
    bitmap_next bits i e mm ≤ e :=
  ⟨bitmap_next_reads_aux bits mm (e - i) i e (le_refl _),
   fun h => bitmap_next_reads_of_ge bits i e mm h,
   bitmap_next_le_aux bits mm (e - i) i e (le_refl _)⟩

/-- Claim C4 witness: word 0 is the only word loaded when scanning the
word with contents 2 from index 0 bound 5 (and its first bit index is
below the bound); a scan whose start is past the bound loads nothing; the
saturated result never exceeds the bound. -/
theorem bitmap_next_safety_spec_witness :
    BITMAP_WORD_BITS * 0 < 5 ∧
    bitmap_next_reads (fun _ => 0) 5 3 MemoryModel.ReleaseConsistency = [] ∧
    bitmap_next (fun _ => 0) 0 130 MemoryModel.ReleaseConsistency ≤ 130 := by
  refine ⟨?_, ?_, ?_⟩
  · apply (bitmap_next_safety_spec (fun _ => 2) 0 5
      MemoryModel.ReleaseConsistency).1 0
    rw [bitmap_next_reads_of_found _ _ _ _ (by omega) (by decide)]
    simp [BITMAP_WORD_BITS]
  · exact (bitmap_next_safety_spec (fun _ => 0) 5 3
      MemoryModel.ReleaseConsistency).2.1 (by omega)
  · exact (bitmap_next_safety_spec (fun _ => 0) 0 130
      MemoryModel.ReleaseConsistency).2.2

/-- Claim C5 counterexample: on the all-zero bitmap with `i = 62`,
`e = 129`, the scan takes 4 invocations (3 recursive steps): the first
recursive step advances the index argument only from 62 to 63 (one bit,
not a full word), and both counts exceed the claimed bound
`(e - i) / BITMAP_WORD_BITS + 1 = 2`. -/
theorem bitmap_next_steps_counterexample :
    bitmap_next_steps (fun _ => 0) 62 129 MemoryModel.ReleaseConsistency = 4 ∧
    (129 - 62) / BITMAP_WORD_BITS + 1 = 2 := by
  constructor
  · rw [bitmap_next_steps_of_zero _ _ _ _ (by omega) (by decide)]
    norm_num [BITMAP_WORD_BITS]
    rw [bitmap_next_steps_of_zero _ _ _ _ (by omega) (by decide)]
    norm_num [BITMAP_WORD_BITS]
    rw [bitmap_next_steps_of_zero _ _ _ _ (by omega) (by decide)]
    norm_num [BITMAP_WORD_BITS]
    rw [bitmap_next_steps_of_ge _ _ _ _ (by omega)]
  · simp [BITMAP_WORD_BITS]

lemma bitmap_next_steps_aligned (bits : Nat → Nat) (mm : MemoryModel) :
    ∀ n i e, e - i ≤ n → (i + 1) % BITMAP_WORD_BITS = 0 →
      bitmap_next_steps bits i e mm ≤ (e - (i + 1)) / BITMAP_WORD_BITS + 2 := by
  intro n
  induction n with
  | zero =>
    intro i e hn _
    rw [bitmap_next_steps_of_ge bits i e mm (by omega)]
    simp only [BITMAP_WORD_BITS]
    omega
  | succ n ih =>
    intro i e hn ha
    by_cases h1 : i + 1 ≥ e
    · rw [bitmap_next_steps_of_ge bits i e mm h1]
      simp only [BITMAP_WORD_BITS]
      omega
    · by_cases h2 : bits ((i + 1) / BITMAP_WORD_BITS) >>>
          ((i + 1) % BITMAP_WORD_BITS) ≠ 0
      · rw [bitmap_next_steps_of_found bits i e mm h1 h2]
        simp only [BITMAP_WORD_BITS]
        omega
      · rw [bitmap_next_steps_of_zero bits i e mm h1 (not_not.mp h2), ha]
        by_cases h3 : (i + 1) + (BITMAP_WORD_BITS - 0) - 1 + 1 ≥ e
        · rw [bitmap_next_steps_of_ge bits _ e mm h3]
          simp only [BITMAP_WORD_BITS] at *
          omega
        · have hrec := ih ((i + 1) + (BITMAP_WORD_BITS - 0) - 1) e
            (by simp only [BITMAP_WORD_BITS] at *; omega)
            (by simp only [BITMAP_WORD_BITS] at *; omega)
          simp only [BITMAP_WORD_BITS] at *
          omega

/-- Claim C5, amended: `bitmap_next` always terminates, but the first
recursive step may advance the index by as little as one bit (it jumps to
the start of the next word); from then on the scan is word-aligned and each
recursive step advances by a full word, so the total number of invocations
is bounded by `(e - i) / BITMAP_WORD_BITS + 3` (hence at most
`(e - i) / BITMAP_WORD_BITS + 2` recursive steps) — not by
`(e - i) / BITMAP_WORD_BITS + 1`. -/
theorem bitmap_next_steps_bound (bits : Nat → Nat) (i e : Nat)
    (mm : MemoryModel) :
    bitmap_next_steps bits i e mm ≤ (e - i) / BITMAP_WORD_BITS + 3 := by
  by_cases h1 : i + 1 ≥ e
  · rw [bitmap_next_steps_of_ge bits i e mm h1]
    simp only [BITMAP_WORD_BITS]
    omega
  · by_cases h2 : bits ((i + 1) / BITMAP_WORD_BITS) >>>
        ((i + 1) % BITMAP_WORD_BITS) ≠ 0
    · rw [bitmap_next_steps_of_found bits i e mm h1 h2]
      simp only [BITMAP_WORD_BITS]
      omega
    · rw [bitmap_next_steps_of_zero bits i e mm h1 (not_not.mp h2)]
      have hb63 := mod_word_lt (i + 1)
      have hrec := bitmap_next_steps_aligned bits mm
        (e - ((i + 1) + (BITMAP_WORD_BITS - (i + 1) % BITMAP_WORD_BITS) - 1))
        ((i + 1) + (BITMAP_WORD_BITS - (i + 1) % BITMAP_WORD_BITS) - 1) e
        (le_refl _)
        (by simp only [BITMAP_WORD_BITS] at *; omega)
      simp only [BITMAP_WORD_BITS] at *
      omega

/-- Claim C6: `bitmap_first` returns `i` when bit `i` is set, and otherwise
returns exactly `bitmap_next bits i e mm`. -/
theorem bitmap_first_spec (bits : Nat → Nat) (i e : Nat) (mm : MemoryModel) :
    (bitSet bits i → bitmap_first bits i e mm = i) ∧
    (¬ bitSet bits i → bitmap_first bits i e mm = bitmap_next bits i e mm) := by
  constructor
  · intro h
    unfold bitSet at h
    have hg : bitmap_get bits i mm ≠ 0 := by
      rw [bitmap_get_eq, if_pos h]
      exact bitmap_mask_ne_zero _
    simp only [bitmap_first]
    rw [if_pos hg]
  · intro h
    simp only [bitSet, Bool.not_eq_true] at h
    have hg : bitmap_get bits i mm = 0 := by
      rw [bitmap_get_eq, h]
      simp
    simp only [bitmap_first]
    rw [if_neg (not_not.mpr hg)]

/-- Claim C6 witness: with every word 1, bit 0 is set and `bitmap_first`
from index 0 returns 0. -/
theorem bitmap_first_spec_witness :
    bitmap_first (fun _ => 1) 0 5 MemoryModel.ReleaseConsistency = 0 :=
  (bitmap_first_spec (fun _ => 1) 0 5 MemoryModel.ReleaseConsistency).1
    (by decide)

/-- Claim C10: `bitmap_first` consults bit `i` before any comparison with
the bound: whenever bit `i` is set it returns `i`, even when `i ≥ e`, so
its result is not saturated at `e` in that case (unlike `bitmap_next`). -/
theorem bitmap_first_ignores_bound (bits : Nat → Nat) (i e : Nat)
    (mm : MemoryModel) (_he : e ≤ i) (hb : bitSet bits i) :
    bitmap_first bits i e mm = i := by
  unfold bitSet at hb
  have hg : bitmap_get bits i mm ≠ 0 := by
    rw [bitmap_get_eq, if_pos hb]
    exact bitmap_mask_ne_zero _
  simp only [bitmap_first]
  rw [if_pos hg]

/-- Claim C10 witness: with every word 1 and `i = 0`, `e = 0` (so `i ≥ e`),
`bitmap_first` still returns 0 because bit 0 is set. -/
theorem bitmap_first_ignores_bound_witness :
    bitmap_first (fun _ => 1) 0 0 MemoryModel.ReleaseConsistency = 0 :=
  bitmap_first_ignores_bound (fun _ => 1) 0 0 MemoryModel.ReleaseConsistency
    (le_refl 0) (by decide)

end atomic_ops
